import Mathlib

/-!
Verification of the codemap repository's graph store, scanner, LSP
enrichment orchestrator, watcher debounce logic and JSON-RPC client
against its natural-language specification.

The Go source is shallowly embedded: each Go function that a claim
depends on is translated into an executable Lean definition over explicit
state; external effects (the filesystem, tree-sitter parses, language
servers, `exec.LookPath`) are supplied as oracle parameters.
-/

namespace Codemap

/-- A graph node (a symbol definition), mirroring the `nodes` table of
`internal/db/db.go` and the `graph.Node` struct used throughout the source:
`id, name, kind, file_path, line_start, line_end, col_start, col_end,
symbol_uri`.  Lines and columns are Go `int`s, modelled as `Int`. -/
structure Node where
  id : String
  name : String
  kind : String
  filePath : String
  lineStart : Int := 1
  lineEnd : Int := 1
  colStart : Int := 1
  colEnd : Int := 1
  symbolUri : String := ""
  deriving Repr, DecidableEq

/-- A graph edge, mirroring the `edges` table: `source_id, target_id,
relation`, primary key on the triple. -/
structure Edge where
  sourceId : String
  targetId : String
  relation : String
  deriving Repr, DecidableEq

/-- The relational store's state: the `nodes` and `edges` tables.
Rows are kept as lists; the `id` primary key of `nodes` and the triple
primary key of `edges` are invariants of the SQL layer, stated as
hypotheses where a claim needs them. -/
structure StoreState where
  nodes : List Node
  edges : List Edge
  deriving Repr, DecidableEq

/-- The query parameters (key-value pairs) of the sqlite DSN built in
`db.New` (`internal/db/db.go`):
`file:<path>?cache=shared&mode=rwc&_journal_mode=WAL`. -/
def dsnOptions : List (String × String) :=
  [("cache", "shared"), ("mode", "rwc"), ("_journal_mode", "WAL")]

/-- Whether a DSN parameter turns on foreign-key enforcement.  The
`mattn/go-sqlite3` driver executes `PRAGMA foreign_keys` only when the DSN
carries a `_foreign_keys` (alias `_fk`) parameter with a true-ish value;
SQLite itself defaults to `foreign_keys = OFF` on every new connection. -/
def fkOption (opt : String × String) : Bool :=
  (opt.1 == "_foreign_keys" || opt.1 == "_fk") &&
    (opt.2 == "1" || opt.2 == "true" || opt.2 == "on" || opt.2 == "yes")

/-- Foreign-key enforcement status of the connection opened by `db.New`:
on exactly when some DSN parameter enables it. -/
def foreignKeysEnabled : Bool := dsnOptions.any fkOption

/-- `Store.DeleteNodesByFile` (graph store, `DELETE FROM nodes WHERE
file_path = ?`).  The `ON DELETE CASCADE` clauses of the `edges` table
fire only when the connection enforces foreign keys, so the edge table is
filtered only under `foreignKeysEnabled`. -/
def DeleteNodesByFile (st : StoreState) (p : String) : StoreState :=
  let deleted := st.nodes.filter (fun n => n.filePath = p)
  { nodes := st.nodes.filter (fun n => ¬ n.filePath = p)
    edges :=
      if foreignKeysEnabled then
        st.edges.filter (fun e =>
          ¬ deleted.any (fun n => n.id = e.sourceId || n.id = e.targetId))
      else st.edges }

/-- `Store.UpsertNode`: `INSERT ... ON CONFLICT(id) DO UPDATE SET` all
scalar columns — replace the row with this id if present, insert
otherwise. -/
def UpsertNode (st : StoreState) (n : Node) : StoreState :=
  if st.nodes.any (fun m => m.id = n.id) then
    { st with nodes := st.nodes.map (fun m => if m.id = n.id then n else m) }
  else
    { st with nodes := st.nodes ++ [n] }

/-- Modelled from the spec: `BulkUpsertNodes` is called by `main.go` and
`internal/server/tools.go` but its body is not among the provided source
files.  Spec 4.2: a single transaction of per-row upserts whose final
state is row-by-row `upsert_node`. -/
def BulkUpsertNodes (st : StoreState) (ns : List Node) : StoreState :=
  ns.foldl UpsertNode st

/-- The distinct file paths of a node batch in first-occurrence order —
the `validFiles` / `validFileList` collection loop of the `index` tool
handler (`internal/server/tools.go`) and `main.go`. -/
def distinctFilePaths (ns : List Node) : List String :=
  ns.foldl (fun acc n => if acc.contains n.filePath then acc else acc ++ [n.filePath]) []

/-- `SELECT DISTINCT file_path FROM nodes` of `Store.PruneStaleFiles`. -/
def storeFilePaths (st : StoreState) : List String :=
  distinctFilePaths st.nodes

/-- `Store.PruneStaleFiles`: collect the distinct file paths in the store,
then delete (via `DeleteNodesByFile`) every one not in the kept set. -/
def PruneStaleFiles (st : StoreState) (found : List String) : StoreState :=
  (storeFilePaths st).foldl
    (fun acc p => if found.contains p then acc else DeleteNodesByFile acc p) st

/-! ## FindImpact: the recursive impact query

`Store.FindImpact` first selects the ids of all nodes carrying the queried
name, then for each such id runs the recursive CTE

  base:      SELECT source_id FROM edges WHERE target_id = ?
  recursive: SELECT e.source_id FROM edges e JOIN impacted i ON e.target_id = i.source_id

and joins the resulting id set back onto `nodes`, deduplicating the node
rows by id in the `uniqueNodes` map.  The CTE's `UNION` deduplicates rows,
so the recursion saturates; the embedding computes the same saturated set
by iterating the one-step operator enough times to reach its fixpoint. -/

/-- Nonempty edge paths: `PathTo edges tid s` holds when a chain of one or
more edges leads from `s` to `tid` following `source -> target` direction. -/
inductive PathTo (edges : List Edge) (tid : String) : String → Prop
  | base (e : Edge) (he : e ∈ edges) (ht : e.targetId = tid) :
      PathTo edges tid e.sourceId
  | step (e : Edge) (he : e ∈ edges) (h : PathTo edges tid e.targetId) :
      PathTo edges tid e.sourceId

/-- One evaluation round of the recursive CTE: keep everything found so
far and add the source of every edge whose target is the queried id or an
already-found id. -/
def stepCl (edges : List Edge) (tid : String) (S : Finset String) : Finset String :=
  S ∪ ((edges.filter (fun e => decide (e.targetId = tid ∨ e.targetId ∈ S))).map
        Edge.sourceId).toFinset

/-- The saturated id set of the recursive CTE for one target id:
`edges.length + 1` rounds suffice to reach the fixpoint because each
non-final round strictly grows a set bounded by the edge sources. -/
def impactedIds (edges : List Edge) (tid : String) : Finset String :=
  (stepCl edges tid)^[edges.length + 1] ∅

/-- `Store.FindImpact`: union of the per-target CTE results, joined back
onto the node table and deduplicated by node id (the `uniqueNodes` map;
`id` is the primary key of `nodes`, so the row list has distinct ids). -/
def FindImpact (st : StoreState) (q : String) : List Node :=
  let targetIDs := (st.nodes.filter (fun n => decide (n.name = q))).map Node.id
  let impacted : Finset String :=
    targetIDs.foldr (fun t acc => impactedIds st.edges t ∪ acc) ∅
  st.nodes.filter (fun n => decide (n.id ∈ impacted))

/-! ## String helpers (byte-level Go string operations, on char lists) -/

/-- `strings.HasPrefix` / Go slice-prefix comparison. -/
def strStartsWith (s patt : String) : Bool := patt.data.isPrefixOf s.data

/-- Go's `path[len(path)-k:] == suffix` comparison. -/
def strEndsWith (s suffix : String) : Bool := suffix.data.isSuffixOf s.data

/-- `strings.Contains`. -/
def strContainsSub (s patt : String) : Bool :=
  (List.range (s.data.length + 1)).any (fun i => patt.data.isPrefixOf (s.data.drop i))

/-- Whitespace recognised by `strings.TrimSpace` (ASCII portion). -/
def isSpaceChar (c : Char) : Bool := c = ' ' || c = '\t' || c = '\n' || c = '\r'

/-- `strings.TrimSpace`. -/
def trimSpace (s : String) : String :=
  ⟨((s.data.dropWhile isSpaceChar).reverse.dropWhile isSpaceChar).reverse⟩

/-- The final path element (`filepath.Ext` looks only at it): characters
after the last slash. -/
def afterLastSlash (cs : List Char) : List Char :=
  cs.foldl (fun acc c => if c = '/' then [] else acc ++ [c]) []

/-- Suffix beginning at the final dot (the dot included), empty when the
element has no dot — `filepath.Ext` on one path element. -/
def extAfterDot (cs : List Char) : List Char :=
  cs.foldl (fun acc c =>
    if c = '.' then ['.'] else if acc.isEmpty then [] else acc ++ [c]) []

/-- `filepath.Ext`. -/
def filepathExt (path : String) : String := ⟨extAfterDot (afterLastSlash path.data)⟩

/-- `strings.TrimPrefix(ext, ".")`. -/
def trimDotPrefix (s : String) : String :=
  match s.data with
  | '.' :: rest => ⟨rest⟩
  | _ => s

/-- The extension key the scanner indexes its language and query maps by:
`strings.TrimPrefix(filepath.Ext(path), ".")`. -/
def extKey (path : String) : String := trimDotPrefix (filepathExt path)

/-! ## Scanner (`Scanner.New`, `ScanFile`, `Scan`)

The tree-sitter grammars and the compiled queries are external to the
store of logic: a parse is an oracle `parse : String -> String -> Option
(List TSMatch)` taking the extension key and the file content and
returning the query matches of the concrete syntax tree (`none` models a
nil tree from the parser).  The filesystem of the full-tree scan is an
explicit tree value; `.gitignore` matching
(`go-gitignore.CompileIgnoreFile` + `MatchesPath`) is an oracle over
relative paths. -/

/-- The extensions registered in `Scanner.New`'s `languages` map:
go, py, js, jsx, ts, tsx, lua (Zig disabled). -/
def supportedLangExts : List String := ["go", "py", "js", "jsx", "ts", "tsx", "lua"]

/-- `getLangKey` of the scanner: extension to query-map key. -/
def getLangKey (ext : String) : String :=
  if ext = "go" then "go"
  else if ext = "py" then "python"
  else if ext = "js" then "javascript"
  else if ext = "jsx" then "javascript"
  else if ext = "ts" then "typescript"
  else if ext = "tsx" then "typescript"
  else if ext = "lua" then "lua"
  else ""

/-- Modelled from the spec: the `Queries` map of
`internal/scanner/queries.go` is referenced by `Scanner.New` but the file
is not among the provided sources.  Per spec 4.1 every supported language
has a grammar query capturing definition `name` tokens, so the map has an
entry for each of the five language keys. -/
def queriesKeys : List String := ["go", "python", "javascript", "typescript", "lua"]

/-- Modelled from the spec: `util.GenerateNodeID` (`util/hash.go` is not
among the provided sources) — a deterministic fingerprint of
`(file_path, name)`. -/
def GenerateNodeID (path name : String) : String := path ++ ":" ++ name

/-- Modelled from the spec: `util.PathToURI` (`util/uri.go` is not among
the provided sources) — the `file://` URI of a path. -/
def PathToURI (path : String) : String := "file://" ++ path

/-- One query match as the scanner consumes it: the text of the `name`
capture when the match has one, the syntactic kind of the name node's
parent when a parent exists, and the 0-based name-token positions. -/
structure TSMatch where
  nameText : Option String
  parentKind : Option String
  startRow : Nat
  startCol : Nat
  endRow : Nat
  endCol : Nat
  deriving Repr, DecidableEq

/-- Node emission of `Scanner.ScanFile` for one match: requires a `name`
capture; kind falls back to `symbol` without a parent; positions are
converted to 1-based; the id uses the root-relative path while
`FilePath` stays absolute, and `SymbolURI` is set. -/
def scanFileMatchNode (relPath absPath : String) (m : TSMatch) : Option Node :=
  m.nameText.map (fun nm =>
    { id := GenerateNodeID relPath nm
      name := nm
      kind := m.parentKind.getD "symbol"
      filePath := absPath
      lineStart := (m.startRow : Int) + 1
      lineEnd := (m.endRow : Int) + 1
      colStart := (m.startCol : Int) + 1
      colEnd := (m.endCol : Int) + 1
      symbolUri := PathToURI absPath })

/-- Node emission of the full-tree `Scanner.Scan` for one match: same as
`scanFileMatchNode` but `SymbolURI` is left empty (the walk does not set
it). -/
def scanWalkMatchNode (relPath absPath : String) (m : TSMatch) : Option Node :=
  m.nameText.map (fun nm =>
    { id := GenerateNodeID relPath nm
      name := nm
      kind := m.parentKind.getD "symbol"
      filePath := absPath
      lineStart := (m.startRow : Int) + 1
      lineEnd := (m.endRow : Int) + 1
      colStart := (m.startCol : Int) + 1
      colEnd := (m.endCol : Int) + 1 })

/-- `filepath.Rel(root, path)` for the common case of a path below the
root; other shapes fall back to the path itself (`ScanFile` ignores the
error and keeps `path`). -/
def relOf (root path : String) : String :=
  if root ≠ "" ∧ (root.data ++ ['/']).isPrefixOf path.data then
    ⟨path.data.drop (root.data.length + 1)⟩
  else path

/-- `Scanner.ScanFile`: reject unsupported extensions, reject extensions
without a compiled query, read the file, parse it, emit one node per
match that captured a `name`. -/
def ScanFile (root : String) (readFile : String → Option String)
    (parse : String → String → Option (List TSMatch)) (path : String) :
    Except String (List Node) :=
  let relPath := relOf root path
  let ext := extKey path
  if ¬ supportedLangExts.contains ext then
    .error ("unsupported file extension: " ++ ext)
  else if ¬ queriesKeys.contains (getLangKey ext) then
    .error ("no query for extension: " ++ ext)
  else
    match readFile path with
    | none => .error "failed to read file"
    | some content =>
      match parse ext content with
      | none => .error "failed to parse file"
      | some ms => .ok (ms.filterMap (scanFileMatchNode relPath path))

mutual
/-- A filesystem entry for the full-tree walk. -/
inductive FsEntry where
  | file (name content : String)
  | dir (name : String) (entries : FsForest)

inductive FsForest where
  | nil
  | cons (e : FsEntry) (rest : FsForest)
end

/-- Directory base names skipped by the walk besides hidden ones:
`node_modules`, `vendor`, `zig-out` (note: `__pycache__` is absent). -/
def skipDirNames : List String := ["node_modules", "vendor", "zig-out"]

/-- The hidden-name skip of the walk: begins with a dot, is not `.`
itself, and is not named `.gitignore`. -/
def skipHidden (name : String) : Bool :=
  strStartsWith name "." && name ≠ "." && name ≠ ".gitignore"

/-- Join relative path components the way `filepath.Rel` renders them. -/
def relString : List String → String
  | [] => ""
  | [c] => c
  | c :: rest => c ++ "/" ++ relString rest

mutual
/-- The walk body of `Scanner.Scan` on one entry: hidden names are
skipped (files and directories alike), directories named in
`skipDirNames` are not descended, gitignore-matched paths are skipped,
supported files are parsed and their matches emitted. -/
def walkEntry (ign : String → Bool)
    (parse : String → String → Option (List TSMatch))
    (rootAbs : String) (relDir : List String) : FsEntry → List Node
  | .file nm content =>
    let relStr := relString (relDir ++ [nm])
    if skipHidden nm then []
    else if ign relStr then []
    else
      let ext := extKey nm
      if ¬ supportedLangExts.contains ext then []
      else if ¬ queriesKeys.contains (getLangKey ext) then []
      else
        match parse ext content with
        | none => []
        | some ms => ms.filterMap (scanWalkMatchNode relStr (rootAbs ++ "/" ++ relStr))
  | .dir nm entries =>
    let relStr := relString (relDir ++ [nm])
    if skipHidden nm then []
    else if skipDirNames.contains nm then []
    else if ign relStr then []
    else walkForest ign parse rootAbs (relDir ++ [nm]) entries

/-- The walk of one directory's entries, in order. -/
def walkForest (ign : String → Bool)
    (parse : String → String → Option (List TSMatch))
    (rootAbs : String) (relDir : List String) : FsForest → List Node
  | .nil => []
  | .cons e rest =>
    walkEntry ign parse rootAbs relDir e ++ walkForest ign parse rootAbs relDir rest
end

/-- `Scanner.Scan`: `filepath.WalkDir` visits the root itself first (its
relative path is `.`, its `d.Name()` the root's base name), then the
tree.  Unreadable-file and parse-failure cases yield no nodes without
aborting; the walk as embedded never fails. -/
def Scan (ign : String → Bool) (parse : String → String → Option (List TSMatch))
    (rootAbs rootName : String) (entries : FsForest) : List Node :=
  if skipHidden rootName then []
  else if skipDirNames.contains rootName then []
  else if ign "." then []
  else walkForest ign parse rootAbs [] entries

/-! ## LSP enrichment orchestrator (`internal/lsp/lsp.go`)

External effects are oracles: `avail` is `exec.LookPath` success
(`isCommandAvailable`), `startOk` is successful subprocess spawn plus
`initialize` handshake in `StartClient`, `readFile` is `os.ReadFile`,
`refs` and `impls` are the location lists returned by
`textDocument/references` and `textDocument/implementation` (with
positions already mapped back from URIs to paths — `util.PathToURI` and
`util.URIToPath` are inverse by the spec's URI-utilities contract — and
an errored or empty LSP call modelled as the empty list), and `resolver`
is the supplied read-only `NodeResolver.FindNode` capability. -/

/-- `ServiceConfig` of the LSP service. -/
structure ServiceConfig where
  goPath : String := ""
  pythonPath : String := ""
  typeScriptPath : String := ""
  luaPath : String := ""
  zigPath : String := ""
  deriving Repr, DecidableEq

/-- `getLang`: suffix-based language detection with Go's length guards. -/
def getLang (path : String) : String :=
  if path.data.length > 3 && strEndsWith path ".go" then "go"
  else if path.data.length > 3 && strEndsWith path ".py" then "python"
  else if path.data.length > 3 && strEndsWith path ".js" then "javascript"
  else if path.data.length > 3 && strEndsWith path ".ts" then "typescript"
  else if path.data.length > 4 && strEndsWith path ".tsx" then "typescript"
  else if path.data.length > 4 && strEndsWith path ".jsx" then "javascript"
  else if path.data.length > 4 && strEndsWith path ".lua" then "lua"
  else if path.data.length > 4 && strEndsWith path ".zig" then "zig"
  else ""

/-- `getLanguageServerCommand`: command path and arguments per language,
with config overrides after `strings.TrimSpace`. -/
def getLanguageServerCommand (cfg : ServiceConfig) (lang : String) :
    String × List String :=
  if lang = "go" then
    if trimSpace cfg.goPath ≠ "" then (trimSpace cfg.goPath, ["serve"])
    else ("gopls", ["serve"])
  else if lang = "python" then
    if trimSpace cfg.pythonPath ≠ "" then (trimSpace cfg.pythonPath, ["--stdio"])
    else ("pyright-langserver", ["--stdio"])
  else if lang = "javascript" ∨ lang = "typescript" then
    if trimSpace cfg.typeScriptPath ≠ "" then (trimSpace cfg.typeScriptPath, ["--stdio"])
    else ("typescript-language-server", ["--stdio"])
  else if lang = "lua" then
    if trimSpace cfg.luaPath ≠ "" then (trimSpace cfg.luaPath, ["--stdio"])
    else ("lua-language-server", ["--stdio"])
  else if lang = "zig" then
    if trimSpace cfg.zigPath ≠ "" then (trimSpace cfg.zigPath, [])
    else ("zls", [])
  else ("", [])

/-- `getLanguageServerInstallInstructions`. -/
def getLanguageServerInstallInstructions (lang : String) : String :=
  if lang = "go" then "go install golang.org/x/tools/gopls@latest"
  else if lang = "python" then "pip install pyright"
  else if lang = "javascript" ∨ lang = "typescript" then
    "npm install -g typescript-language-server typescript"
  else if lang = "lua" then
    "brew install lua-language-server  # or download from github.com/LuaLS/lua-language-server"
  else if lang = "zig" then "brew install zls  # or build from github.com/zigtools/zls"
  else ""

/-- `detectRequiredLanguages`: the set of nonempty `getLang` values over
the batch's file paths (the Go map's unspecified iteration order is fixed
here as first-occurrence order). -/
def detectRequiredLanguages (nodes : List Node) : List String :=
  nodes.foldl (fun acc n =>
    let lang := getLang n.filePath
    if lang ≠ "" && !acc.contains lang then acc ++ [lang] else acc) []

/-- The `missing` list of `validateLanguageServers`: required languages
whose command (nonempty — `cmdPath == ""` is skipped) is not available. -/
def missingServers (cfg : ServiceConfig) (avail : String → Bool)
    (required : List String) : List String :=
  required.filter (fun lang =>
    let cmd := (getLanguageServerCommand cfg lang).1
    cmd ≠ "" && !avail cmd)

/-- The install-instruction lines of the validation error: one
`lang: instruction` pair per missing language with a nonempty
instruction. -/
def missingInstructions (missing : List String) : List (String × String) :=
  missing.filterMap (fun lang =>
    let i := getLanguageServerInstallInstructions lang
    if i = "" then none else some (lang, i))

/-- The fatal outcomes of `Enrich`, keeping the structured content that
the Go code renders into its error strings: the missing-servers message
lists the missing languages and their install instructions. -/
inductive EnrichError where
  | missingServers (missing : List String) (instructions : List (String × String))
  | noServersStarted
  deriving Repr, DecidableEq

/-- `isDefinitionKind`. -/
def isDefinitionKind (kind : String) : Bool :=
  kind = "function_declaration" || kind = "method_declaration" ||
  kind = "method_definition" || kind = "function_definition" ||
  kind = "class_definition" || kind = "class_declaration" ||
  kind = "interface_declaration" || kind = "type_definition"

/-- `isInterfaceKind`. -/
def isInterfaceKind (kind : String) : Bool :=
  kind = "interface_declaration" || kind = "protocol_declaration"

/-- An LSP location already mapped back to a path (0-based position). -/
structure Location where
  path : String
  line : Int
  char : Int
  deriving Repr, DecidableEq

/-- `findReferenceEdges`: for each reference location, resolve the
enclosing node (1-based coordinates) and emit `(source, queried,
references)` when it resolves to a different node. -/
def findReferenceEdges (refs : Node → List Location)
    (resolver : String → Int → Int → Option Node) (n : Node) : List Edge :=
  (refs n).filterMap (fun loc =>
    match resolver loc.path (loc.line + 1) (loc.char + 1) with
    | some src => if src.id ≠ n.id then some ⟨src.id, n.id, "references"⟩ else none
    | none => none)

/-- `findImplementationEdges`: same shape with relation `implements`. -/
def findImplementationEdges (impls : Node → List Location)
    (resolver : String → Int → Int → Option Node) (n : Node) : List Edge :=
  (impls n).filterMap (fun loc =>
    match resolver loc.path (loc.line + 1) (loc.char + 1) with
    | some impl => if impl.id ≠ n.id then some ⟨impl.id, n.id, "implements"⟩ else none
    | none => none)

/-- The worker-loop body of `Enrich` for one node: skip when no client is
running for the node's language, when the document cannot be read, or
when the node is not a named definition; otherwise collect reference
edges plus, for interfaces, implementation edges. -/
def enrichNodeEdges (clients : List String) (readFile : String → Option String)
    (refs impls : Node → List Location)
    (resolver : String → Int → Int → Option Node) (n : Node) : List Edge :=
  let lang := getLang n.filePath
  if ¬ clients.contains lang then []
  else
    match readFile n.filePath with
    | none => []
    | some _ =>
      if n.name = "" || !isDefinitionKind n.kind then []
      else
        findReferenceEdges refs resolver n ++
          (if isInterfaceKind n.kind then findImplementationEdges impls resolver n
           else [])

/-- The world visible to the orchestrator: the graph store and the
service's client map (keyed by language).  `Enrich` holds no other
mutable reference to the store — the `NodeResolver` passed to it is a
read capability only. -/
structure World where
  store : StoreState
  clients : List String
  deriving Repr, DecidableEq

/-- `detectAndStartLanguageServers` outcome: a required language counts
as started when a client is already running (`StartClient` no-op) or the
spawn and handshake succeed; languages without a command are skipped. -/
def startedLangs (cfg : ServiceConfig) (startOk : String → Bool)
    (clients : List String) (required : List String) : List String :=
  required.filter (fun l =>
    let cmd := (getLanguageServerCommand cfg l).1
    cmd ≠ "" && (clients.contains l || startOk cmd))

/-- The client map after `detectAndStartLanguageServers`. -/
def updClients (clients started : List String) : List String :=
  clients ++ started.filter (fun l => !clients.contains l)

/-- `Service.Enrich`, with its effect on the world made explicit: detect
required languages (none: no edges, no error), validate executables
(fatal error listing the missing servers and their instructions), start
clients, and on success return all edges the worker pool computes.
`waitForIndexing` and document open/close only affect timing and the
per-client document version maps, not the result or the store. -/
def EnrichWorld (cfg : ServiceConfig) (avail startOk : String → Bool)
    (readFile : String → Option String) (refs impls : Node → List Location)
    (resolver : String → Int → Int → Option Node) (nodes : List Node)
    (w : World) : Except EnrichError (List Edge) × World :=
  let required := detectRequiredLanguages nodes
  if required = [] then (.ok [], w)
  else
    let missing := missingServers cfg avail required
    if missing ≠ [] then
      (.error (.missingServers missing (missingInstructions missing)), w)
    else
      let started := startedLangs cfg startOk w.clients required
      let w2 : World := { w with clients := updClients w.clients started }
      if started = [] then (.error .noServersStarted, w2)
      else
        (.ok (nodes.flatMap (enrichNodeEdges w2.clients readFile refs impls resolver)),
          w2)

/-! ## JSON-RPC client error channel (`readLoop` / `CallWithContext`)

`readLoop` runs until `ReadMessage` fails; the terminal read outcome is
either EOF or an error message.  The client's `errChan` has capacity one
and is written with a non-blocking send.  After the reader has exited no
response can ever complete a pending request, so a later
`CallWithContext` resolves its select either from `errChan` or from the
context deadline; that post-exit regime is modelled sequentially. -/

/-- The terminal outcome of `ReadMessage` that ends `readLoop`. -/
inductive ReadOutcome where
  | eof
  | errMsg (msg : String)
  deriving Repr, DecidableEq

/-- The client state the claim is about: the one-slot error channel. -/
structure ClientChans where
  errSlot : Option String
  deriving Repr, DecidableEq

/-- The exit path of `readLoop`: publish the error with a non-blocking
send unless it is `io.EOF` or its message contains `closed`; then
return. -/
def readLoopExit (st : ClientChans) (r : ReadOutcome) : ClientChans :=
  match r with
  | .eof => st
  | .errMsg m =>
    if strContainsSub m "closed" then st
    else
      match st.errSlot with
      | none => { st with errSlot := some m }
      | some e => { st with errSlot := some e }

/-- How a `CallWithContext` issued after the reader exited ends. -/
inductive CallResult where
  | serverError (msg : String)
  | ctxTimeout
  deriving Repr, DecidableEq

/-- `CallWithContext` after reader exit: its select receives from
`errChan` when an error was published (consuming it — the channel is
drained), otherwise blocks until the context deadline and reports the
timeout error. -/
def callAfterExit (st : ClientChans) : CallResult × ClientChans :=
  match st.errSlot with
  | some e => (.serverError e, { st with errSlot := none })
  | none => (.ctxTimeout, st)

/-! ## Watcher debounce (`internal/watcher/watcher.go`)

Time is in milliseconds.  `pendingFiles` maps a path to its deadline;
`handleEvent` routes Write/Create of non-ignored source files to
`debounceFile`, which stores `now + debounceTime`; `processPendingFiles`
(run from the 100 ms ticker) removes and reindexes every entry whose
deadline lies strictly in the past (`now.After(deadline)`). -/

/-- `Watcher.isSourceFile` (extension match, lower-cased). -/
def isSourceFile (path : String) : Bool :=
  let ext := filepathExt ⟨path.data.map Char.toLower⟩
  ext = ".go" || ext = ".py" || ext = ".js" || ext = ".ts" ||
    ext = ".tsx" || ext = ".jsx" || ext = ".lua"

/-- `debounceTime` set in `watcher.New`: 500 ms. -/
def debounceTime : Nat := 500

/-- The pending-files map, keyed by path with millisecond deadlines. -/
abbrev PendingMap := List (String × Nat)

def pmLookup (m : PendingMap) (p : String) : Option Nat :=
  (m.find? (fun e => e.1 = p)).map (fun e => e.2)

/-- Go map assignment `pendingFiles[path] = deadline`. -/
def pmInsert (m : PendingMap) (p : String) (d : Nat) : PendingMap :=
  (p, d) :: m.filter (fun e => ¬ e.1 = p)

/-- `debounceFile`: store deadline `now + debounceTime`. -/
def debounceFile (m : PendingMap) (path : String) (now : Nat) : PendingMap :=
  pmInsert m path (now + debounceTime)

/-- The Write/Create arm of `handleEvent`: gitignore-matched paths are
dropped, non-source files are not debounced (directory registration
aside). -/
def handleWriteEvent (ign : String → Bool) (m : PendingMap) (path : String)
    (now : Nat) : PendingMap :=
  if ign path then m
  else if isSourceFile path then debounceFile m path now
  else m

/-- The entries fired by one `processPendingFiles` pass: deadline strictly
before `now`. -/
def flushFired (m : PendingMap) (now : Nat) : List String :=
  (m.filter (fun e => e.2 < now)).map (fun e => e.1)

/-- The pending map after one `processPendingFiles` pass. -/
def flushKeep (m : PendingMap) (now : Nat) : PendingMap :=
  m.filter (fun e => ¬ e.2 < now)

/-- A watcher trace step: a Write/Create event on a path, or one ticker
flush, each time-stamped. -/
inductive WStep where
  | write (path : String) (t : Nat)
  | flush (t : Nat)
  deriving Repr, DecidableEq

/-- Run a trace over the pending map, collecting the reindexed paths in
order. -/
def runWatcher (ign : String → Bool) : PendingMap → List WStep → PendingMap × List String
  | m, [] => (m, [])
  | m, .write p t :: rest => runWatcher ign (handleWriteEvent ign m p t) rest
  | m, .flush t :: rest =>
    let out := runWatcher ign (flushKeep m t) rest
    (out.1, flushFired m t ++ out.2)

/-- The entries of the pending map carrying a given path (the map has at
most one, but the proofs track the entry list explicitly and need no
key-uniqueness invariant). -/
def pEntries (p : String) (m : PendingMap) : List (String × Nat) :=
  m.filter (fun e => e.1 = p)

/-! ## Concrete fixtures used by witnesses and counterexamples -/

/-- Concrete chain fixture a -> b -> c -> d used by witnesses. -/
def chainNodeA : Node := { id := "a", name := "a", kind := "k", filePath := "fa" }

def chainNodeB : Node := { id := "b", name := "b", kind := "k", filePath := "fb" }

def chainNodeC : Node := { id := "c", name := "c", kind := "k", filePath := "fc" }

def chainNodeD : Node := { id := "d", name := "d", kind := "k", filePath := "fd" }

def chainStore : StoreState :=
  { nodes := [chainNodeA, chainNodeB, chainNodeC, chainNodeD]
    edges := [⟨"a", "b", "references"⟩, ⟨"b", "c", "references"⟩,
              ⟨"c", "d", "references"⟩] }

/-- Self-loop fixture for the C9 witness. -/
def loopNode : Node := { id := "s", name := "q", kind := "k", filePath := "fs" }

def loopStore : StoreState :=
  { nodes := [loopNode], edges := [⟨"s", "s", "references"⟩] }

/-- Fixture: a node in `a.go`, a node in `b.go`, and an edge from the
latter to the former. -/
def fkNodeA : Node := { id := "n1", name := "A", kind := "k", filePath := "a.go" }

def fkNodeB : Node := { id := "n2", name := "B", kind := "k", filePath := "b.go" }

def fkStore : StoreState :=
  { nodes := [fkNodeA, fkNodeB], edges := [⟨"n2", "n1", "references"⟩] }

/-- Duplicate-id fixture for the C3 counterexample: two batch members with
the same id but different file paths. -/
def dupNodeA : Node := { id := "x", name := "n", kind := "k", filePath := "a" }

def dupNodeB : Node := { id := "x", name := "n", kind := "k", filePath := "b" }

/-- A Go definition node for the enrichment witnesses. -/
def goNode : Node :=
  { id := "idg", name := "MainFunc", kind := "function_declaration", filePath := "m.go" }

/-- A parse oracle that reports one named function match for python files. -/
def pyParse : String → String → Option (List TSMatch) :=
  fun ext _ =>
    if ext = "py" then some [⟨some "f", some "function_definition", 0, 0, 0, 1⟩]
    else some []

/-- A workspace containing a `__pycache__` directory and a directory named
`.gitignore`, each holding a python file. -/
def c6Forest : FsForest :=
  .cons (.dir "__pycache__" (.cons (.file "x.py" "c") .nil))
    (.cons (.dir ".gitignore" (.cons (.file "y.py" "c") .nil)) .nil)

theorem subset_stepCl (edges : List Edge) (tid : String) (S : Finset String) :
    S ⊆ stepCl edges tid S :=
  Finset.subset_union_left

theorem iterate_stepCl_subset_succ (edges : List Edge) (tid : String) (n : ℕ) :
    (stepCl edges tid)^[n] ∅ ⊆ (stepCl edges tid)^[n + 1] ∅ := by
  rw [Function.iterate_succ_apply']
  exact subset_stepCl edges tid _

/-- Every id produced by the iteration is the source of some edge. -/
theorem iterate_stepCl_subset_sources (edges : List Edge) (tid : String) (n : ℕ) :
    (stepCl edges tid)^[n] ∅ ⊆ (edges.map Edge.sourceId).toFinset := by
  induction n with
  | zero => simp
  | succ n ih =>
    rw [Function.iterate_succ_apply']
    intro x hx
    rcases Finset.mem_union.mp hx with h | h
    · exact ih h
    · rcases List.mem_map.mp (List.mem_toFinset.mp h) with ⟨e, he, rfl⟩
      exact List.mem_toFinset.mpr (List.mem_map_of_mem _ (List.mem_of_mem_filter he))

theorem iterate_stepCl_mono (edges : List Edge) (tid : String) {m n : ℕ} (h : m ≤ n) :
    (stepCl edges tid)^[m] ∅ ⊆ (stepCl edges tid)^[n] ∅ := by
  induction n with
  | zero => simp [Nat.le_zero.mp h]
  | succ n ih =>
    rcases Nat.lt_or_ge m (n + 1) with hlt | hge
    · exact (ih (Nat.lt_succ_iff.mp hlt)).trans (iterate_stepCl_subset_succ edges tid n)
    · rw [Nat.le_antisymm h hge]

theorem iterate_fixed_of_eq {α : Type} (f : α → α) (x : α) (n : ℕ)
    (h : f (f^[n] x) = f^[n] x) : ∀ k, f^[n + k] x = f^[n] x := by
  intro k
  induction k with
  | zero => rfl
  | succ k ih =>
    rw [show n + (k + 1) = (n + k) + 1 from rfl, Function.iterate_succ_apply', ih, h]

/-- The iteration reaches a fixpoint within `edges.length` rounds. -/
theorem exists_stepCl_fixpoint (edges : List Edge) (tid : String) :
    ∃ n ≤ edges.length,
      stepCl edges tid ((stepCl edges tid)^[n] ∅) = (stepCl edges tid)^[n] ∅ := by
  by_contra hcon
  push_neg at hcon
  have hstrict : ∀ n ≤ edges.length,
      (stepCl edges tid)^[n] ∅ ⊂ (stepCl edges tid)^[n + 1] ∅ := by
    intro n hn
    refine Finset.ssubset_iff_subset_ne.mpr ⟨iterate_stepCl_subset_succ edges tid n, ?_⟩
    intro heq
    exact hcon n hn (((Function.iterate_succ_apply' (stepCl edges tid) n ∅).symm.trans heq.symm))
  have hcard : ∀ n ≤ edges.length + 1, n ≤ ((stepCl edges tid)^[n] ∅).card := by
    intro n hn
    induction n with
    | zero => exact Nat.zero_le _
    | succ n ih =>
      have h1 : n ≤ ((stepCl edges tid)^[n] ∅).card := ih (Nat.le_of_succ_le hn)
      have h2 := Finset.card_lt_card (hstrict n (Nat.lt_succ_iff.mp hn))
      omega
  have hbound : ((stepCl edges tid)^[edges.length + 1] ∅).card ≤ edges.length := by
    calc ((stepCl edges tid)^[edges.length + 1] ∅).card
        ≤ (edges.map Edge.sourceId).toFinset.card :=
          Finset.card_le_card (iterate_stepCl_subset_sources edges tid _)
      _ ≤ (edges.map Edge.sourceId).length := (edges.map Edge.sourceId).toFinset_card_le
      _ = edges.length := List.length_map _ _
  have := hcard (edges.length + 1) (Nat.le_refl _)
  omega

/-- `impactedIds` is a fixpoint of the CTE round operator. -/
theorem stepCl_impactedIds (edges : List Edge) (tid : String) :
    stepCl edges tid (impactedIds edges tid) = impactedIds edges tid := by
  obtain ⟨n, hn, hfix⟩ := exists_stepCl_fixpoint edges tid
  have hall := iterate_fixed_of_eq (stepCl edges tid) ∅ n hfix
  have h1 : impactedIds edges tid = (stepCl edges tid)^[n] ∅ := by
    have := hall (edges.length + 1 - n)
    rw [Nat.add_sub_cancel' (Nat.le_succ_of_le hn)] at this
    exact this
  rw [h1, hfix]

/-- Soundness: every id in the saturated set is connected to the target by
a nonempty edge path. -/
theorem pathTo_of_mem_iterate (edges : List Edge) (tid : String) (n : ℕ) :
    ∀ x ∈ (stepCl edges tid)^[n] ∅, PathTo edges tid x := by
  induction n with
  | zero => simp
  | succ n ih =>
    rw [Function.iterate_succ_apply']
    intro x hx
    rcases Finset.mem_union.mp hx with h | h
    · exact ih x h
    · rcases List.mem_map.mp (List.mem_toFinset.mp h) with ⟨e, he, rfl⟩
      rcases List.mem_filter.mp he with ⟨hmem, hpred⟩
      rcases of_decide_eq_true hpred with htid | hS
      · exact PathTo.base e hmem htid
      · exact PathTo.step e hmem (ih _ hS)

/-- Completeness: every id with a nonempty edge path to the target lands
in the saturated set. -/
theorem mem_impactedIds_of_pathTo (edges : List Edge) (tid : String) (x : String)
    (h : PathTo edges tid x) : x ∈ impactedIds edges tid := by
  induction h with
  | base e he ht =>
    rw [← stepCl_impactedIds edges tid]
    refine Finset.mem_union_right _ (List.mem_toFinset.mpr ?_)
    exact List.mem_map_of_mem _ (List.mem_filter.mpr ⟨he, decide_eq_true (Or.inl ht)⟩)
  | step e he _ ih =>
    rw [← stepCl_impactedIds edges tid]
    refine Finset.mem_union_right _ (List.mem_toFinset.mpr ?_)
    exact List.mem_map_of_mem _ (List.mem_filter.mpr ⟨he, decide_eq_true (Or.inr ih)⟩)

theorem mem_impactedIds (edges : List Edge) (tid x : String) :
    x ∈ impactedIds edges tid ↔ PathTo edges tid x :=
  ⟨pathTo_of_mem_iterate edges tid _ x, mem_impactedIds_of_pathTo edges tid x⟩

theorem mem_foldr_union {α : Type} [DecidableEq α] (f : String → Finset α)
    (l : List String) (x : α) :
    (x ∈ l.foldr (fun t acc => f t ∪ acc) ∅) ↔ ∃ t ∈ l, x ∈ f t := by
  induction l with
  | nil => simp
  | cons a l ih => simp [ih]

/-- Membership characterisation of `FindImpact`: exactly the stored nodes
with a nonempty edge path to some stored node carrying the queried name. -/
theorem mem_FindImpact (st : StoreState) (q : String) (n : Node) :
    n ∈ FindImpact st q ↔
      n ∈ st.nodes ∧ ∃ t ∈ st.nodes, t.name = q ∧ PathTo st.edges t.id n.id := by
  unfold FindImpact
  rw [List.mem_filter]
  simp only [decide_eq_true_eq]
  rw [mem_foldr_union]
  constructor
  · rintro ⟨hn, tid, htid, himp⟩
    rcases List.mem_map.mp htid with ⟨t, ht, rfl⟩
    rcases List.mem_filter.mp ht with ⟨htmem, htname⟩
    exact ⟨hn, t, htmem, of_decide_eq_true htname, (mem_impactedIds _ _ _).mp himp⟩
  · rintro ⟨hn, t, htmem, htname, hpath⟩
    refine ⟨hn, t.id, List.mem_map_of_mem _ ?_, (mem_impactedIds _ _ _).mpr hpath⟩
    exact List.mem_filter.mpr ⟨htmem, decide_eq_true htname⟩

/-! ## Claim C1 / C9: FindImpact behaviour -/

/-- Claim C1: for every graph state and symbol name, `FindImpact` returns
exactly the set of stored nodes with a nonempty edge path (following
`source -> target` edges backwards from each node carrying the queried
name), deduplicated by node id; in particular for any edge chain
a -> b -> c -> d the query for d's name contains a, b and c.  Termination
on cyclic edge sets holds by construction: the embedding is a total
function computing the saturated set of the CTE's deduplicating UNION. -/
theorem FindImpact_spec :
    (∀ (st : StoreState) (q : String) (n : Node),
        n ∈ FindImpact st q ↔
          n ∈ st.nodes ∧ ∃ t ∈ st.nodes, t.name = q ∧ PathTo st.edges t.id n.id) ∧
    (∀ (st : StoreState), (st.nodes.map Node.id).Nodup →
        ∀ q, ((FindImpact st q).map Node.id).Nodup) ∧
    (∀ (st : StoreState) (a b c d : Node) (e1 e2 e3 : Edge),
        a ∈ st.nodes → b ∈ st.nodes → c ∈ st.nodes → d ∈ st.nodes →
        e1 ∈ st.edges → e2 ∈ st.edges → e3 ∈ st.edges →
        e1.sourceId = a.id → e1.targetId = b.id →
        e2.sourceId = b.id → e2.targetId = c.id →
        e3.sourceId = c.id → e3.targetId = d.id →
        a ∈ FindImpact st d.name ∧ b ∈ FindImpact st d.name ∧
          c ∈ FindImpact st d.name) := by
  refine ⟨mem_FindImpact, ?_, ?_⟩
  · intro st hnd q
    exact ((List.filter_sublist st.nodes).map Node.id).nodup hnd
  · intro st a b c d e1 e2 e3 ha hb hc hd he1 he2 he3 h1s h1t h2s h2t h3s h3t
    have hcd : PathTo st.edges d.id c.id := by
      rw [← h3s]; exact PathTo.base e3 he3 h3t
    have hbd : PathTo st.edges d.id b.id := by
      rw [← h2s]; exact PathTo.step e2 he2 (by rw [h2t]; exact hcd)
    have had : PathTo st.edges d.id a.id := by
      rw [← h1s]; exact PathTo.step e1 he1 (by rw [h1t]; exact hbd)
    exact ⟨(mem_FindImpact st d.name a).mpr ⟨ha, d, hd, rfl, had⟩,
           (mem_FindImpact st d.name b).mpr ⟨hb, d, hd, rfl, hbd⟩,
           (mem_FindImpact st d.name c).mpr ⟨hc, d, hd, rfl, hcd⟩⟩

/-- Witness for C1 at the concrete chain store. -/
theorem FindImpact_spec_witness :
    chainNodeA ∈ chainStore.nodes ∧
    (chainNodeA ∈ FindImpact chainStore "d" ∧ chainNodeB ∈ FindImpact chainStore "d" ∧
      chainNodeC ∈ FindImpact chainStore "d") :=
  ⟨by decide,
    by
      have h := FindImpact_spec.2.2 chainStore chainNodeA chainNodeB chainNodeC
        chainNodeD ⟨"a", "b", "references"⟩ ⟨"b", "c", "references"⟩
        ⟨"c", "d", "references"⟩ (by decide) (by decide) (by decide) (by decide)
        (by decide) (by decide) (by decide) rfl rfl rfl rfl rfl rfl
      exact h⟩

/-- Claim C9: a node carrying the queried name appears in the result only
when it has a nonempty edge path into some node carrying that name; when
it is the unique such node, membership is equivalent to reachability from
itself through a nonempty edge path. -/
theorem FindImpact_queried_target :
    (∀ (st : StoreState) (q : String) (n : Node), n.name = q →
        (n ∈ FindImpact st q →
          ∃ t ∈ st.nodes, t.name = q ∧ PathTo st.edges t.id n.id)) ∧
    (∀ (st : StoreState) (q : String) (n : Node),
        n ∈ st.nodes → n.name = q →
        (∀ m ∈ st.nodes, m.name = q → m = n) →
        (n ∈ FindImpact st q ↔ PathTo st.edges n.id n.id)) := by
  constructor
  · intro st q n _ hmem
    exact ((mem_FindImpact st q n).mp hmem).2
  · intro st q n hn hq huniq
    constructor
    · intro hmem
      rcases ((mem_FindImpact st q n).mp hmem).2 with ⟨t, ht, htq, hpath⟩
      rwa [huniq t ht htq] at hpath
    · intro hpath
      exact (mem_FindImpact st q n).mpr ⟨hn, n, hn, hq, hpath⟩

/-- Witness for C9: with a self-loop, the unique node carrying the queried
name is reported exactly because it reaches itself by a nonempty path. -/
theorem FindImpact_queried_target_witness :
    loopNode ∈ loopStore.nodes ∧ loopNode ∈ FindImpact loopStore "q" :=
  ⟨by decide,
    (FindImpact_queried_target.2 loopStore "q" loopNode (by decide) rfl
      (by decide)).mpr
      (PathTo.base ⟨"s", "s", "references"⟩ (by decide) rfl)⟩

/-! ## Claim C2: delete cascade -/

/-- Claim C2 is violated by the code: the DSN in `db.New` never enables
foreign-key enforcement, so the `ON DELETE CASCADE` clauses of the schema
are inert and `DeleteNodesByFile` leaves behind every edge touching the
deleted nodes — contradicting both the spec and the code's own comment
(`SQLite will cascade delete edges due to foreign key constraints`).
At the fixture, after deleting file `a.go` the edge whose target is the
deleted node `n1` is still in the store. -/
theorem DeleteNodesByFile_no_cascade :
    foreignKeysEnabled = false ∧
    (DeleteNodesByFile fkStore "a.go").nodes = [fkNodeB] ∧
    (DeleteNodesByFile fkStore "a.go").edges = [⟨"n2", "n1", "references"⟩] ∧
    ¬ (∀ e ∈ (DeleteNodesByFile fkStore "a.go").edges,
        ∀ n ∈ fkStore.nodes, n.filePath = "a.go" →
          e.sourceId ≠ n.id ∧ e.targetId ≠ n.id) := by
  refine ⟨rfl, by decide, by decide, ?_⟩
  intro h
  exact ((h ⟨"n2", "n1", "references"⟩ (by decide) fkNodeA (by decide) rfl).2) rfl

/-! ## Claim C3: prune correctness after a bulk upsert -/

theorem mem_distinctFilePaths (ns : List Node) (p : String) :
    p ∈ distinctFilePaths ns ↔ ∃ n ∈ ns, n.filePath = p := by
  have general : ∀ (l : List Node) (acc : List String),
      p ∈ l.foldl (fun acc n =>
          if acc.contains n.filePath then acc else acc ++ [n.filePath]) acc ↔
        p ∈ acc ∨ ∃ n ∈ l, n.filePath = p := by
    intro l
    induction l with
    | nil => simp
    | cons m rest ih =>
      intro acc
      rw [List.foldl_cons, ih]
      by_cases hc : acc.contains m.filePath
      · have hmem : m.filePath ∈ acc := List.elem_iff.mp hc
        rw [if_pos hc]
        constructor
        · rintro (h | ⟨n, hn, hnp⟩)
          · exact Or.inl h
          · exact Or.inr ⟨n, List.mem_cons_of_mem m hn, hnp⟩
        · rintro (h | ⟨n, hn, hnp⟩)
          · exact Or.inl h
          · rcases List.mem_cons.mp hn with rfl | hn2
            · exact Or.inl (hnp ▸ hmem)
            · exact Or.inr ⟨n, hn2, hnp⟩
      · rw [if_neg hc]
        constructor
        · rintro (h | ⟨n, hn, hnp⟩)
          · rcases List.mem_append.mp h with h2 | h2
            · exact Or.inl h2
            · exact Or.inr ⟨m, List.mem_cons_self m rest,
                (List.mem_singleton.mp h2).symm⟩
          · exact Or.inr ⟨n, List.mem_cons_of_mem m hn, hnp⟩
        · rintro (h | ⟨n, hn, hnp⟩)
          · exact Or.inl (List.mem_append.mpr (Or.inl h))
          · rcases List.mem_cons.mp hn with rfl | hn2
            · exact Or.inl (List.mem_append.mpr (Or.inr (by simp [← hnp])))
            · exact Or.inr ⟨n, hn2, hnp⟩
  simpa [distinctFilePaths] using general ns []

/-- Pruning over an arbitrary path list keeps exactly the nodes whose path
is kept or never visited. -/
theorem mem_prune_fold (kept : List String) (l : List String) (st : StoreState)
    (n : Node) :
    n ∈ (l.foldl (fun acc p =>
          if kept.contains p then acc else DeleteNodesByFile acc p) st).nodes ↔
      n ∈ st.nodes ∧ (n.filePath ∈ kept ∨ n.filePath ∉ l) := by
  induction l generalizing st with
  | nil => simp
  | cons p rest ih =>
    rw [List.foldl_cons]
    by_cases hc : kept.contains p
    · have hpk : p ∈ kept := List.elem_iff.mp hc
      rw [if_pos hc, ih]
      constructor
      · rintro ⟨hn, hk | hnot⟩
        · exact ⟨hn, Or.inl hk⟩
        · by_cases hp : n.filePath = p
          · exact ⟨hn, Or.inl (hp ▸ hpk)⟩
          · exact ⟨hn, Or.inr (by simp [List.mem_cons, hp, hnot])⟩
      · rintro ⟨hn, hk | hnot⟩
        · exact ⟨hn, Or.inl hk⟩
        · exact ⟨hn, Or.inr (fun h => hnot (List.mem_cons_of_mem p h))⟩
    · rw [if_neg hc, ih]
      have hdel : n ∈ (DeleteNodesByFile st p).nodes ↔
          n ∈ st.nodes ∧ ¬ n.filePath = p := by
        simp [DeleteNodesByFile]
      rw [hdel]
      have hpk : p ∉ kept := fun h => hc (List.elem_iff.mpr h)
      constructor
      · rintro ⟨⟨hn, hnp⟩, hk | hnot⟩
        · exact ⟨hn, Or.inl hk⟩
        · exact ⟨hn, Or.inr (by simp [List.mem_cons, hnp, hnot])⟩
      · rintro ⟨hn, hk | hnot⟩
        · refine ⟨⟨hn, fun hp => hpk (hp ▸ hk)⟩, Or.inl hk⟩
        · refine ⟨⟨hn, fun hp => hnot (hp ▸ List.mem_cons_self p rest)⟩,
            Or.inr (fun h => hnot (List.mem_cons_of_mem p h))⟩

/-- After `PruneStaleFiles st kept` the surviving nodes are exactly those
of `st` whose path is in `kept`. -/
theorem mem_PruneStaleFiles (st : StoreState) (kept : List String) (n : Node) :
    n ∈ (PruneStaleFiles st kept).nodes ↔ n ∈ st.nodes ∧ n.filePath ∈ kept := by
  rw [PruneStaleFiles, mem_prune_fold]
  constructor
  · rintro ⟨hn, hk | hnot⟩
    · exact ⟨hn, hk⟩
    · exact absurd ((mem_distinctFilePaths st.nodes n.filePath).mpr ⟨n, hn, rfl⟩) hnot
  · rintro ⟨hn, hk⟩
    exact ⟨hn, Or.inl hk⟩

/-- The node just upserted is present afterwards. -/
theorem self_mem_UpsertNode (st : StoreState) (y : Node) :
    y ∈ (UpsertNode st y).nodes := by
  rw [UpsertNode]
  by_cases h : st.nodes.any (fun m => m.id = y.id)
  · rw [if_pos h]
    rcases List.any_eq_true.mp h with ⟨m, hm, hid⟩
    refine List.mem_map.mpr ⟨m, hm, ?_⟩
    simp [of_decide_eq_true hid]
  · rw [if_neg h]
    simp

/-- A record with a given id and path survives later upserts whose batch
never maps that id to a different path. -/
theorem bulk_preserves_id_path (rest : List Node) (st : StoreState)
    (i p : String)
    (hpresent : ∃ m ∈ st.nodes, m.id = i ∧ m.filePath = p)
    (hrest : ∀ y ∈ rest, y.id = i → y.filePath = p) :
    ∃ m ∈ (BulkUpsertNodes st rest).nodes, m.id = i ∧ m.filePath = p := by
  induction rest generalizing st with
  | nil => exact hpresent
  | cons y rest ih
  =>
    rw [BulkUpsertNodes, List.foldl_cons]
    refine ih (UpsertNode st y) ?_ (fun z hz => hrest z (List.mem_cons_of_mem y hz))
    rcases hpresent with ⟨m, hm, hid, hp⟩
    by_cases hyi : y.id = i
    · exact ⟨y, self_mem_UpsertNode st y, hyi, hrest y (List.mem_cons_self y rest) hyi⟩
    · rw [UpsertNode]
      by_cases h : st.nodes.any (fun m => m.id = y.id)
      · rw [if_pos h]
        refine ⟨m, List.mem_map.mpr ⟨m, hm, ?_⟩, hid, hp⟩
        have : ¬ m.id = y.id := fun hcon => hyi (hcon ▸ hid)
        simp [this]
      · rw [if_neg h]
        exact ⟨m, List.mem_append.mpr (Or.inl hm), hid, hp⟩

/-- Every batch member leaves a record with its id and path in the store
after the bulk upsert, provided equal-id batch members agree on the path. -/
theorem bulk_mem_id_path (ns : List Node) (st : StoreState) (n : Node)
    (hn : n ∈ ns)
    (hcons : ∀ y ∈ ns, ∀ z ∈ ns, y.id = z.id → y.filePath = z.filePath) :
    ∃ m ∈ (BulkUpsertNodes st ns).nodes, m.id = n.id ∧ m.filePath = n.filePath := by
  induction ns generalizing st with
  | nil => cases hn
  | cons x rest ih =>
    rcases List.mem_cons.mp hn with rfl | hn2
    · rw [BulkUpsertNodes, List.foldl_cons]
      refine bulk_preserves_id_path rest (UpsertNode st n) n.id n.filePath
        ⟨n, self_mem_UpsertNode st n, rfl, rfl⟩ ?_
      intro y hy hyid
      exact hcons y (List.mem_cons_of_mem n hy) n (List.mem_cons_self n rest) hyid
    · rw [BulkUpsertNodes, List.foldl_cons]
      exact ih (UpsertNode st x) hn2
        (fun y hy z hz => hcons y (List.mem_cons_of_mem x hy) z (List.mem_cons_of_mem x hz))

/-- Amended claim C3: for every starting store and every node batch whose
equal-id members agree on `file_path` (always true for scanner output,
where the id is a fingerprint of the file path and name), after
`BulkUpsertNodes` followed by `PruneStaleFiles` on the batch's distinct
file paths, the set of file paths present in the store equals exactly the
distinct file paths of the batch.  The consistency hypothesis is forced by
`prune_bulk_counterexample`. -/
theorem PruneStaleFiles_after_bulk (st : StoreState) (ns : List Node)
    (hcons : ∀ y ∈ ns, ∀ z ∈ ns, y.id = z.id → y.filePath = z.filePath)
    (p : String) :
    (∃ n ∈ (PruneStaleFiles (BulkUpsertNodes st ns) (distinctFilePaths ns)).nodes,
        n.filePath = p) ↔ p ∈ distinctFilePaths ns := by
  constructor
  · rintro ⟨n, hn, rfl⟩
    exact ((mem_PruneStaleFiles _ _ n).mp hn).2
  · intro hp
    rcases (mem_distinctFilePaths ns p).mp hp with ⟨n, hn, rfl⟩
    rcases bulk_mem_id_path ns st n hn hcons with ⟨m, hm, _, hmp⟩
    refine ⟨m, (mem_PruneStaleFiles _ _ m).mpr ⟨hm, ?_⟩, hmp⟩
    rw [hmp]
    exact hp

/-- Counterexample to claim C3 as stated: for the batch
`[dupNodeA, dupNodeB]` (same id `x`, file paths `a` and `b`), after the
bulk upsert into an empty store and the prune, path `a` is among the
batch's distinct file paths but no stored node carries it, so the two sets
differ. -/
theorem prune_bulk_counterexample :
    ¬ ((∃ n ∈ (PruneStaleFiles (BulkUpsertNodes ⟨[], []⟩ [dupNodeA, dupNodeB])
          (distinctFilePaths [dupNodeA, dupNodeB])).nodes, n.filePath = "a") ↔
        "a" ∈ distinctFilePaths [dupNodeA, dupNodeB]) := by
  decide

/-- Witness for the amended C3 at a concrete consistent batch. -/
theorem PruneStaleFiles_after_bulk_witness :
    (∀ y ∈ [chainNodeA, chainNodeB], ∀ z ∈ [chainNodeA, chainNodeB],
        y.id = z.id → y.filePath = z.filePath) ∧
    ((∃ n ∈ (PruneStaleFiles (BulkUpsertNodes ⟨[], []⟩ [chainNodeA, chainNodeB])
          (distinctFilePaths [chainNodeA, chainNodeB])).nodes,
        n.filePath = "fa") ↔ "fa" ∈ distinctFilePaths [chainNodeA, chainNodeB]) :=
  ⟨by decide,
    PruneStaleFiles_after_bulk ⟨[], []⟩ [chainNodeA, chainNodeB] (by decide) "fa"⟩

/-! ## Claim C4 / C10: the enrichment orchestrator -/

theorem mem_detectRequiredLanguages (nodes : List Node) (l : String)
    (h : l ∈ detectRequiredLanguages nodes) :
    l ≠ "" ∧ ∃ n ∈ nodes, getLang n.filePath = l := by
  have general : ∀ (ns : List Node) (acc : List String),
      l ∈ ns.foldl (fun acc n =>
          let lang := getLang n.filePath
          if lang ≠ "" && !acc.contains lang then acc ++ [lang] else acc) acc →
        l ∈ acc ∨ (l ≠ "" ∧ ∃ n ∈ ns, getLang n.filePath = l) := by
    intro ns
    induction ns with
    | nil => intro acc h2; exact Or.inl h2
    | cons m rest ih =>
      intro acc h2
      rw [List.foldl_cons] at h2
      rcases ih _ h2 with hacc | ⟨hne, n, hn, hl⟩
      · by_cases hcond : (getLang m.filePath ≠ "" && !acc.contains (getLang m.filePath)) = true
        · rw [if_pos hcond] at hacc
          rcases List.mem_append.mp hacc with h3 | h3
          · exact Or.inl h3
          · have hl : getLang m.filePath = l := (List.mem_singleton.mp h3).symm
            have hne : ¬ getLang m.filePath = "" :=
              of_decide_eq_true (Bool.and_elim_left hcond)
            exact Or.inr ⟨fun hc => hne (hl.trans hc ▸ hl ▸ hc ▸ rfl),
              m, List.mem_cons_self m rest, hl⟩
        · rw [if_neg hcond] at hacc
          exact Or.inl hacc
      · exact Or.inr ⟨hne, n, List.mem_cons_of_mem m hn, hl⟩
  rcases general nodes [] h with h2 | h2
  · cases h2
  · exact h2

theorem getLang_cases (path : String) :
    getLang path = "" ∨
      getLang path ∈ ["go", "python", "javascript", "typescript", "lua", "zig"] := by
  unfold getLang
  split_ifs <;> simp

theorem serverCommand_ne_empty (cfg : ServiceConfig) (l : String)
    (h : l ∈ ["go", "python", "javascript", "typescript", "lua", "zig"]) :
    (getLanguageServerCommand cfg l).1 ≠ "" := by
  simp only [List.mem_cons, List.not_mem_nil, or_false] at h
  rcases h with rfl | rfl | rfl | rfl | rfl | rfl <;>
    · simp only [getLanguageServerCommand]
      split_ifs <;> simp_all

theorem installInstructions_ne_empty (l : String)
    (h : l ∈ ["go", "python", "javascript", "typescript", "lua", "zig"]) :
    getLanguageServerInstallInstructions l ≠ "" := by
  simp only [List.mem_cons, List.not_mem_nil, or_false] at h
  rcases h with rfl | rfl | rfl | rfl | rfl | rfl <;> decide

theorem required_serverCommand_ne_empty (cfg : ServiceConfig) (nodes : List Node)
    (l : String) (h : l ∈ detectRequiredLanguages nodes) :
    (getLanguageServerCommand cfg l).1 ≠ "" := by
  rcases mem_detectRequiredLanguages nodes l h with ⟨hne, n, _, hl⟩
  rcases getLang_cases n.filePath with h0 | hmem
  · exact absurd (hl ▸ h0) (fun hc => hne hc)
  · exact serverCommand_ne_empty cfg l (hl ▸ hmem)

theorem required_in_known (nodes : List Node) (l : String)
    (h : l ∈ detectRequiredLanguages nodes) :
    l ∈ ["go", "python", "javascript", "typescript", "lua", "zig"] := by
  rcases mem_detectRequiredLanguages nodes l h with ⟨hne, n, _, hl⟩
  rcases getLang_cases n.filePath with h0 | hmem
  · exact absurd (hl ▸ h0) (fun hc => hne hc)
  · exact hl ▸ hmem

theorem mem_missingInstructions (missing : List String) (l : String)
    (hmem : l ∈ missing) (hne : getLanguageServerInstallInstructions l ≠ "") :
    (l, getLanguageServerInstallInstructions l) ∈ missingInstructions missing := by
  refine List.mem_filterMap.mpr ⟨l, hmem, ?_⟩
  simp only [if_neg hne]

/-- Claim C4: when some language required by the batch has no executable
available, `Enrich` fails with the missing-servers error, which lists
every missing language together with its install instructions, and
returns no edges; and `Enrich` never reports partial success — every
successful result is the complete per-node edge computation over the
whole batch. -/
theorem Enrich_validation_spec (cfg : ServiceConfig) (avail startOk : String → Bool)
    (readFile : String → Option String) (refs impls : Node → List Location)
    (resolver : String → Int → Int → Option Node) (nodes : List Node) (w : World) :
    (∀ lang ∈ detectRequiredLanguages nodes,
        avail (getLanguageServerCommand cfg lang).1 = false →
        (EnrichWorld cfg avail startOk readFile refs impls resolver nodes w).1 =
          .error (.missingServers
            (missingServers cfg avail (detectRequiredLanguages nodes))
            (missingInstructions
              (missingServers cfg avail (detectRequiredLanguages nodes)))) ∧
        lang ∈ missingServers cfg avail (detectRequiredLanguages nodes) ∧
        (lang, getLanguageServerInstallInstructions lang) ∈
          missingInstructions
            (missingServers cfg avail (detectRequiredLanguages nodes)) ∧
        ∀ es, (EnrichWorld cfg avail startOk readFile refs impls resolver nodes w).1 ≠
          .ok es) ∧
    ((∃ err,
        (EnrichWorld cfg avail startOk readFile refs impls resolver nodes w).1 =
          .error err) ∨
      ∃ cls,
        (EnrichWorld cfg avail startOk readFile refs impls resolver nodes w).1 =
          .ok (nodes.flatMap (enrichNodeEdges cls readFile refs impls resolver))) := by
  constructor
  · intro lang hlang havail
    have hreq : detectRequiredLanguages nodes ≠ [] := List.ne_nil_of_mem hlang
    have hcmd : (getLanguageServerCommand cfg lang).1 ≠ "" :=
      required_serverCommand_ne_empty cfg nodes lang hlang
    have hmiss : lang ∈ missingServers cfg avail (detectRequiredLanguages nodes) := by
      refine List.mem_filter.mpr ⟨hlang, ?_⟩
      simp [havail, hcmd]
    have hmissne : missingServers cfg avail (detectRequiredLanguages nodes) ≠ [] :=
      List.ne_nil_of_mem hmiss
    refine ⟨?_, hmiss, ?_, ?_⟩
    · simp only [EnrichWorld]
      rw [if_neg hreq, if_pos hmissne]
    · exact mem_missingInstructions _ lang hmiss
        (installInstructions_ne_empty lang (required_in_known nodes lang hlang))
    · intro es
      simp only [EnrichWorld]
      rw [if_neg hreq, if_pos hmissne]
      simp
  · simp only [EnrichWorld]
    split_ifs
    · exact Or.inr ⟨[], by simp [enrichNodeEdges]⟩
    · exact Or.inl ⟨_, rfl⟩
    · exact Or.inl ⟨_, rfl⟩
    · exact Or.inr ⟨_, rfl⟩

/-- Witness for C4: a single Go node with no `gopls` on the PATH. -/
theorem Enrich_validation_spec_witness :
    "go" ∈ detectRequiredLanguages [goNode] ∧
    (EnrichWorld ⟨"", "", "", "", ""⟩ (fun _ => false) (fun _ => false)
        (fun _ => none) (fun _ => []) (fun _ => []) (fun _ _ _ => none)
        [goNode] ⟨⟨[], []⟩, []⟩).1 =
      .error (.missingServers
        (missingServers ⟨"", "", "", "", ""⟩ (fun _ => false)
          (detectRequiredLanguages [goNode]))
        (missingInstructions
          (missingServers ⟨"", "", "", "", ""⟩ (fun _ => false)
            (detectRequiredLanguages [goNode])))) :=
  ⟨by decide,
    ((Enrich_validation_spec ⟨"", "", "", "", ""⟩ (fun _ => false) (fun _ => false)
        (fun _ => none) (fun _ => []) (fun _ => []) (fun _ _ _ => none)
        [goNode] ⟨⟨[], []⟩, []⟩).1 "go" (by decide) rfl).1⟩

/-- Claim C10: `Enrich` never writes to the graph store — over any oracles
and any starting world, the store component (both tables) after the call
is the starting one; only the service's client map may grow. -/
theorem Enrich_store_frame (cfg : ServiceConfig) (avail startOk : String → Bool)
    (readFile : String → Option String) (refs impls : Node → List Location)
    (resolver : String → Int → Int → Option Node) (nodes : List Node) (w : World) :
    ((EnrichWorld cfg avail startOk readFile refs impls resolver nodes w).2).store =
      w.store := by
  simp only [EnrichWorld]
  split_ifs <;> rfl

/-! ## Claim C6 / C7: scanner skip rules and supported extensions -/

theorem afterLastSlash_append (xs ys : List Char) :
    afterLastSlash (xs ++ '/' :: ys) = afterLastSlash ys := by
  unfold afterLastSlash
  rw [show xs ++ '/' :: ys = (xs ++ ['/']) ++ ys by simp, List.foldl_append,
    List.foldl_append]
  simp

theorem extKey_left_append (a b : String) : extKey (a ++ "/" ++ b) = extKey b := by
  unfold extKey filepathExt
  have hdata : (a ++ "/" ++ b).data = a.data ++ '/' :: b.data := by
    simp [String.data_append]
  rw [hdata, afterLastSlash_append]

theorem extKey_join (rootAbs : String) (relDir : List String) (nm : String) :
    extKey (rootAbs ++ "/" ++ relString (relDir ++ [nm])) = extKey nm := by
  induction relDir generalizing rootAbs with
  | nil => exact extKey_left_append rootAbs nm
  | cons d ds ih =>
    have h1 : relString ((d :: ds) ++ [nm]) = d ++ "/" ++ relString (ds ++ [nm]) := by
      cases hds : ds ++ [nm] with
      | nil => exact absurd hds (by simp)
      | cons x xs => rw [List.cons_append, hds]; rfl
    rw [h1, show rootAbs ++ "/" ++ (d ++ "/" ++ relString (ds ++ [nm])) =
        (rootAbs ++ "/" ++ d) ++ "/" ++ relString (ds ++ [nm]) by
      simp [String.append_assoc]]
    exact ih (rootAbs ++ "/" ++ d)

mutual
theorem walkEntry_supported (ign : String → Bool)
    (parse : String → String → Option (List TSMatch)) (rootAbs : String) :
    ∀ (e : FsEntry) (relDir : List String) (n : Node),
      n ∈ walkEntry ign parse rootAbs relDir e →
      supportedLangExts.contains (extKey n.filePath) = true
  | .file nm content, relDir, n, hmem => by
    simp only [walkEntry] at hmem
    split_ifs at hmem with h1 h2 h3 h4
    all_goals first
      | exact absurd hmem (List.not_mem_nil n)
      | · cases hp : parse (extKey nm) content with
          | none => rw [hp] at hmem; exact absurd hmem (List.not_mem_nil n)
          | some ms =>
            rw [hp] at hmem
            rcases List.mem_filterMap.mp hmem with ⟨mt, _, hsome⟩
            cases hname : mt.nameText with
            | none => rw [scanWalkMatchNode, hname] at hsome; cases hsome
            | some nm2 =>
              rw [scanWalkMatchNode, hname] at hsome
              have hfp : n.filePath =
                  rootAbs ++ "/" ++ relString (relDir ++ [nm]) := by
                cases Option.some.inj hsome
                rfl
              rw [hfp, extKey_join]
              exact h3
  | .dir nm entries, relDir, n, hmem => by
    simp only [walkEntry] at hmem
    split_ifs at hmem with h1 h2 h3
    all_goals first
      | exact absurd hmem (List.not_mem_nil n)
      | exact walkForest_supported ign parse rootAbs entries (relDir ++ [nm]) n hmem

theorem walkForest_supported (ign : String → Bool)
    (parse : String → String → Option (List TSMatch)) (rootAbs : String) :
    ∀ (f : FsForest) (relDir : List String) (n : Node),
      n ∈ walkForest ign parse rootAbs relDir f →
      supportedLangExts.contains (extKey n.filePath) = true
  | .nil, relDir, n, hmem => by
    simp only [walkForest] at hmem
    exact absurd hmem (List.not_mem_nil n)
  | .cons e rest, relDir, n, hmem => by
    simp only [walkForest] at hmem
    rcases List.mem_append.mp hmem with h | h
    · exact walkEntry_supported ign parse rootAbs e relDir n h
    · exact walkForest_supported ign parse rootAbs rest relDir n h
end

theorem query_of_supported (e : String) (h : e ∈ supportedLangExts) :
    queriesKeys.contains (getLangKey e) = true := by
  fin_cases h <;> decide

/-- Amended claim C6: the full-tree scan never descends into, and emits no
nodes from, a directory whose base name begins with a dot — unless the
directory is named `.gitignore`, which the code exempts — or whose base
name is `node_modules`, `vendor` or `zig-out`, or whose relative path the
gitignore matcher accepts.  `__pycache__` is dropped from the claim's
skip list (forced by `Scan_pycache_counterexample`), and `.gitignore`
-named directories are added to the exemptions. -/
theorem Scan_skip_dirs (ign : String → Bool)
    (parse : String → String → Option (List TSMatch)) (rootAbs : String)
    (relDir : List String) (nm : String) (entries : FsForest)
    (h : skipHidden nm = true ∨ nm ∈ skipDirNames ∨
      ign (relString (relDir ++ [nm])) = true) :
    walkEntry ign parse rootAbs relDir (.dir nm entries) = [] := by
  simp only [walkEntry]
  split_ifs with h1 h2 h3
  · rfl
  · rfl
  · rfl
  · rcases h with h | h | h
    · exact absurd h h1
    · exact absurd (List.elem_iff.mpr h) h2
    · exact absurd h h3

/-- Witness for the amended C6 at a `node_modules` directory. -/
theorem Scan_skip_dirs_witness :
    ("node_modules" ∈ skipDirNames) ∧
    walkEntry (fun _ => false) pyParse "/r" []
      (.dir "node_modules" (.cons (.file "x.py" "c") .nil)) = [] :=
  ⟨by decide,
    Scan_skip_dirs (fun _ => false) pyParse "/r" [] "node_modules"
      (.cons (.file "x.py" "c") .nil) (Or.inr (Or.inl (by decide)))⟩

/-- Counterexample to claim C6 as stated: the walk has no `__pycache__`
rule, and it exempts entries named `.gitignore` from the hidden-name skip
even when they are directories; at this workspace the scan emits a node
from inside `__pycache__` and one from inside a directory named
`.gitignore`. -/
theorem Scan_pycache_counterexample :
    (∃ n ∈ Scan (fun _ => false) pyParse "/r" "proj" c6Forest,
        n.filePath = "/r/__pycache__/x.py") ∧
    (∃ n ∈ Scan (fun _ => false) pyParse "/r" "proj" c6Forest,
        n.filePath = "/r/.gitignore/y.py") := by
  decide

/-- Claim C7: a file is supported exactly when its extension is one of
go, py, js, jsx, ts, tsx, lua — `ScanFile` errors on any other extension;
every supported extension has a registered parser and a compiled query,
and on a readable, parseable file of a supported extension `ScanFile`
returns its nodes without error; the full-tree scan only ever emits nodes
from supported files (and, as a total function, reports no error for
unsupported ones). -/
theorem ScanFile_supported_spec :
    (∀ (root : String) (readFile : String → Option String)
        (parse : String → String → Option (List TSMatch)) (path : String),
        extKey path ∉ supportedLangExts →
        ScanFile root readFile parse path =
          .error ("unsupported file extension: " ++ extKey path)) ∧
    (∀ ext ∈ supportedLangExts, queriesKeys.contains (getLangKey ext) = true) ∧
    (∀ (root : String) (readFile : String → Option String)
        (parse : String → String → Option (List TSMatch)) (path : String)
        (content : String) (ms : List TSMatch),
        extKey path ∈ supportedLangExts →
        readFile path = some content →
        parse (extKey path) content = some ms →
        ScanFile root readFile parse path =
          .ok (ms.filterMap (scanFileMatchNode (relOf root path) path))) ∧
    (∀ (ign : String → Bool) (parse : String → String → Option (List TSMatch))
        (rootAbs rootName : String) (entries : FsForest) (n : Node),
        n ∈ Scan ign parse rootAbs rootName entries →
        supportedLangExts.contains (extKey n.filePath) = true) := by
  refine ⟨?_, ?_, ?_, ?_⟩
  · intro root readFile parse path h
    simp only [ScanFile]
    rw [if_pos (fun hc => h (List.elem_iff.mp hc))]
  · intro ext h
    exact query_of_supported ext h
  · intro root readFile parse path content ms hsup hread hparse
    simp only [ScanFile]
    rw [if_neg (fun hc => hc (List.elem_iff.mpr hsup)),
      if_neg (fun hc => hc (query_of_supported _ hsup)), hread]
    simp [hparse]
  · intro ign parse rootAbs rootName entries n hmem
    simp only [Scan] at hmem
    split_ifs at hmem with h1 h2 h3
    · exact absurd hmem (List.not_mem_nil n)
    · exact absurd hmem (List.not_mem_nil n)
    · exact absurd hmem (List.not_mem_nil n)
    · exact walkForest_supported ign parse rootAbs entries [] n hmem

/-- Witness for C7: a `.txt` file is rejected, a `.py` file with a parsed
match list is accepted. -/
theorem ScanFile_supported_spec_witness :
    (extKey "a.txt" ∉ supportedLangExts ∧
      ScanFile "" (fun _ => some "c") pyParse "a.txt" =
        .error ("unsupported file extension: " ++ extKey "a.txt")) ∧
    (extKey "a.py" ∈ supportedLangExts ∧
      ScanFile "" (fun _ => some "c") pyParse "a.py" =
        .ok ([⟨some "f", some "function_definition", 0, 0, 0, 1⟩].filterMap
          (scanFileMatchNode (relOf "" "a.py") "a.py"))) :=
  ⟨⟨by decide,
      ScanFile_supported_spec.1 "" (fun _ => some "c") pyParse "a.txt" (by decide)⟩,
    ⟨by decide,
      ScanFile_supported_spec.2.2.1 "" (fun _ => some "c") pyParse "a.py" "c"
        [⟨some "f", some "function_definition", 0, 0, 0, 1⟩] (by decide) rfl
        (by decide)⟩⟩

/-! ## Claim C8: the reader's error channel -/

/-- Counterexample to claim C8 as stated, at two concrete runs.  On EOF
the reader exits without publishing anything, and the following call ends
in the context timeout rather than failing with a published error.  On a
published error (`boom`), the first subsequent call fails with it but
consumes it from the one-slot channel, so the next call times out —
"every subsequent request fails with the published error" is false. -/
theorem readLoop_publish_counterexample :
    ((readLoopExit ⟨none⟩ .eof).errSlot = none ∧
      ¬ ∃ e, (callAfterExit (readLoopExit ⟨none⟩ .eof)).1 = .serverError e) ∧
    ((callAfterExit (readLoopExit ⟨none⟩ (.errMsg "boom"))).1 =
        .serverError "boom" ∧
      (callAfterExit
          (callAfterExit (readLoopExit ⟨none⟩ (.errMsg "boom"))).2).1 =
        .ctxTimeout) := by
  refine ⟨⟨rfl, ?_⟩, rfl, rfl⟩
  rintro ⟨e, he⟩
  cases he

/-- Amended claim C8: when the reader hits a read error that is neither
EOF nor carries `closed` in its message, it publishes the error on the
one-slot channel with a non-blocking send (an already-published error is
kept) and exits; on EOF or a `closed` error it exits without publishing.
After the exit, the next request that finds a published error consumes it
and fails with it; a request finding the slot empty fails with the
context timeout instead. -/
theorem readLoop_error_channel_spec :
    (∀ st : ClientChans, readLoopExit st .eof = st) ∧
    (∀ (st : ClientChans) (m : String), strContainsSub m "closed" = true →
        readLoopExit st (.errMsg m) = st) ∧
    (∀ m : String, strContainsSub m "closed" = false →
        (readLoopExit ⟨none⟩ (.errMsg m)).errSlot = some m) ∧
    (∀ (st : ClientChans) (m e : String), strContainsSub m "closed" = false →
        st.errSlot = some e → (readLoopExit st (.errMsg m)).errSlot = some e) ∧
    (∀ (st : ClientChans) (e : String), st.errSlot = some e →
        (callAfterExit st).1 = .serverError e ∧
          (callAfterExit st).2.errSlot = none) ∧
    (∀ st : ClientChans, st.errSlot = none → (callAfterExit st).1 = .ctxTimeout) := by
  refine ⟨fun st => rfl, ?_, ?_, ?_, ?_, ?_⟩
  · intro st m h
    simp [readLoopExit, h]
  · intro m h
    simp [readLoopExit, h]
  · intro st m e hm hslot
    simp [readLoopExit, hm, hslot]
  · intro st e hslot
    simp [callAfterExit, hslot]
  · intro st hslot
    simp [callAfterExit, hslot]

/-- Witness for the amended C8: the error `boom` is published and the next
call fails with it. -/
theorem readLoop_error_channel_spec_witness :
    strContainsSub "boom" "closed" = false ∧
    (readLoopExit ⟨none⟩ (.errMsg "boom")).errSlot = some "boom" :=
  ⟨by decide, readLoop_error_channel_spec.2.2.1 "boom" (by decide)⟩

/-! ## Claim C5: watcher debounce -/

theorem filter_false_nil {α : Type} (l : List α) (f : α → Bool)
    (h : ∀ a ∈ l, f a = false) : l.filter f = [] := by
  induction l with
  | nil => rfl
  | cons a rest ih =>
    rw [List.filter_cons, h a (List.mem_cons_self a rest)]
    simp only [Bool.false_eq_true, if_false]
    exact ih (fun b hb => h b (List.mem_cons_of_mem a hb))

theorem pEntries_pmInsert_self (m : PendingMap) (p : String) (d : Nat) :
    pEntries p (pmInsert m p d) = [(p, d)] := by
  unfold pEntries pmInsert
  rw [List.filter_cons, List.filter_filter,
    filter_false_nil _ _ (fun e _ => by by_cases h : e.1 = p <;> simp [h])]
  simp

theorem pEntries_pmInsert_ne (m : PendingMap) (p q : String) (d : Nat)
    (h : ¬ q = p) : pEntries p (pmInsert m q d) = pEntries p m := by
  unfold pEntries pmInsert
  rw [List.filter_cons]
  simp only [decide_eq_true_eq, h, if_false]
  rw [List.filter_filter]
  exact List.filter_congr (fun e _ => by
    by_cases he : e.1 = p
    · simp [he]
      exact fun hc => h hc.symm
    · simp [he])

theorem pmLookup_pmInsert_self (m : PendingMap) (p : String) (d : Nat) :
    pmLookup (pmInsert m p d) p = some d := by
  unfold pmLookup pmInsert
  rw [List.find?_cons_of_pos _ (by simp)]
  rfl

theorem pEntries_handleWrite_self (ign : String → Bool) (m : PendingMap)
    (p : String) (t : Nat) (hip : ign p = false) (hsp : isSourceFile p = true) :
    pEntries p (handleWriteEvent ign m p t) = [(p, t + 500)] := by
  unfold handleWriteEvent
  rw [hip]
  simp only [Bool.false_eq_true, if_false, hsp, if_true]
  exact pEntries_pmInsert_self m p (t + 500)

theorem pEntries_handleWrite_ne (ign : String → Bool) (m : PendingMap)
    (p q : String) (t : Nat) (h : ¬ q = p) :
    pEntries p (handleWriteEvent ign m q t) = pEntries p m := by
  unfold handleWriteEvent
  split_ifs with h1 h2
  · rfl
  · exact pEntries_pmInsert_ne m p q (t + debounceTime) h
  · rfl

theorem pEntries_flushKeep (m : PendingMap) (t : Nat) (p : String) :
    pEntries p (flushKeep m t) = (pEntries p m).filter (fun e => ¬ e.2 < t) := by
  unfold pEntries flushKeep
  rw [List.filter_filter, List.filter_filter]
  exact List.filter_congr (fun e _ => by by_cases h : e.1 = p <;> simp [h])

theorem count_flushFired (m : PendingMap) (t : Nat) (p : String) :
    (flushFired m t).count p = ((pEntries p m).filter (fun e => e.2 < t)).length := by
  unfold flushFired pEntries
  induction m with
  | nil => rfl
  | cons e rest ih =>
    by_cases h2 : e.2 < t <;> by_cases h1 : e.1 = p <;>
      simp [List.filter_cons, h1, h2, List.count_cons, ih]

theorem mem_flushFired (m : PendingMap) (t : Nat) (p : String)
    (h : p ∈ flushFired m t) : ∃ d, (p, d) ∈ m ∧ d < t := by
  unfold flushFired at h
  rcases List.mem_map.mp h with ⟨e, he, rfl⟩
  rcases List.mem_filter.mp he with ⟨hmem, hlt⟩
  exact ⟨e.2, hmem, of_decide_eq_true hlt⟩

theorem runWatcher_append (ign : String → Bool) (a b : List WStep) :
    ∀ m, runWatcher ign m (a ++ b) =
      ((runWatcher ign (runWatcher ign m a).1 b).1,
        (runWatcher ign m a).2 ++ (runWatcher ign (runWatcher ign m a).1 b).2) := by
  induction a with
  | nil => intro m; simp [runWatcher]
  | cons s rest ih =>
    intro m
    cases s with
    | write q t =>
      rw [List.cons_append]
      show runWatcher ign (handleWriteEvent ign m q t) (rest ++ b) = _
      rw [ih (handleWriteEvent ign m q t)]
      rfl
    | flush t =>
      rw [List.cons_append]
      show (_, flushFired m t ++ (runWatcher ign (flushKeep m t) (rest ++ b)).2) = _
      rw [ih (flushKeep m t)]
      simp [runWatcher, List.append_assoc]

theorem run_count_zero_of_empty (ign : String → Bool) (p : String)
    (trace : List WStep) :
    ∀ m, pEntries p m = [] → (∀ t, WStep.write p t ∈ trace → False) →
      (runWatcher ign m trace).2.count p = 0 ∧
        pEntries p (runWatcher ign m trace).1 = [] := by
  induction trace with
  | nil => intro m hm _; exact ⟨rfl, hm⟩
  | cons s rest ih =>
    intro m hm hw
    cases s with
    | write q t =>
      have hq : ¬ q = p := fun hqp =>
        hw t (hqp ▸ List.mem_cons_self (WStep.write q t) rest)
      have hm2 : pEntries p (handleWriteEvent ign m q t) = [] :=
        (pEntries_handleWrite_ne ign m p q t hq).trans hm
      exact ih (handleWriteEvent ign m q t) hm2
        (fun t2 h2 => hw t2 (List.mem_cons_of_mem _ h2))
    | flush t =>
      have hkeep : pEntries p (flushKeep m t) = [] := by
        rw [pEntries_flushKeep, hm]; rfl
      have hrest := ih (flushKeep m t) hkeep
        (fun t2 h2 => hw t2 (List.mem_cons_of_mem _ h2))
      refine ⟨?_, hrest.2⟩
      show ((flushFired m t ++ (runWatcher ign (flushKeep m t) rest).2).count p) = 0
      rw [List.count_append, count_flushFired, hm]
      simp [hrest.1]

theorem run_count_one_of_single (ign : String → Bool) (p : String)
    (trace : List WStep) :
    ∀ m d, pEntries p m = [(p, d)] →
      (∀ t, WStep.write p t ∈ trace → False) →
      (∃ t, WStep.flush t ∈ trace ∧ d < t) →
      (runWatcher ign m trace).2.count p = 1 := by
  induction trace with
  | nil =>
    intro m d _ _ hex
    rcases hex with ⟨t, ht, _⟩
    cases ht
  | cons s rest ih =>
    intro m d hm hw hex
    cases s with
    | write q t =>
      have hq : ¬ q = p := fun hqp =>
        hw t (hqp ▸ List.mem_cons_self (WStep.write q t) rest)
      have hm2 : pEntries p (handleWriteEvent ign m q t) = [(p, d)] :=
        (pEntries_handleWrite_ne ign m p q t hq).trans hm
      refine ih (handleWriteEvent ign m q t) d hm2
        (fun t2 h2 => hw t2 (List.mem_cons_of_mem _ h2)) ?_
      rcases hex with ⟨tf, htf, hdt⟩
      rcases List.mem_cons.mp htf with heq | hin
      · exact WStep.noConfusion heq
      · exact ⟨tf, hin, hdt⟩
    | flush t =>
      by_cases hdt : d < t
      · have hkeep : pEntries p (flushKeep m t) = [] := by
          rw [pEntries_flushKeep, hm, List.filter_cons]
          simp [hdt]
        have hrest := run_count_zero_of_empty ign p rest (flushKeep m t) hkeep
          (fun t2 h2 => hw t2 (List.mem_cons_of_mem _ h2))
        show ((flushFired m t ++ (runWatcher ign (flushKeep m t) rest).2).count p) = 1
        rw [List.count_append, count_flushFired, hm, List.filter_cons]
        simp [hdt, hrest.1]
      · have hkeep : pEntries p (flushKeep m t) = [(p, d)] := by
          rw [pEntries_flushKeep, hm, List.filter_cons]
          simp [hdt]
        have hex2 : ∃ tf, WStep.flush tf ∈ rest ∧ d < tf := by
          rcases hex with ⟨tf, htf, hdtf⟩
          rcases List.mem_cons.mp htf with heq | hin
          · exact absurd (WStep.flush.inj heq ▸ hdtf) hdt
          · exact ⟨tf, hin, hdtf⟩
        have hrest := ih (flushKeep m t) d hkeep
          (fun t2 h2 => hw t2 (List.mem_cons_of_mem _ h2)) hex2
        show ((flushFired m t ++ (runWatcher ign (flushKeep m t) rest).2).count p) = 1
        rw [List.count_append, count_flushFired, hm, List.filter_cons]
        simp [hdt, hrest]

theorem run_pre_keep (ign : String → Bool) (p : String) (t0 : Nat)
    (hip : ign p = false) (hsp : isSourceFile p = true) (pre : List WStep) :
    ∀ m d, (∀ t, WStep.write p t ∈ pre → t0 ≤ t ∧ t < t0 + 500) →
      (∀ t, WStep.flush t ∈ pre → t ≤ t0 + 500) →
      pEntries p m = [(p, d)] → t0 + 500 ≤ d → d < t0 + 1000 →
      (runWatcher ign m pre).2.count p = 0 ∧
        ∃ d2, pEntries p (runWatcher ign m pre).1 = [(p, d2)] ∧
          t0 + 500 ≤ d2 ∧ d2 < t0 + 1000 := by
  induction pre with
  | nil => intro m d _ _ hm hd1 hd2; exact ⟨rfl, d, hm, hd1, hd2⟩
  | cons s rest ih =>
    intro m d hw hf hm hd1 hd2
    cases s with
    | write q t =>
      by_cases hq : q = p
      · subst hq
        have hbounds := hw t (List.mem_cons_self _ rest)
        have hm2 := pEntries_handleWrite_self ign m q t hip hsp
        exact ih (handleWriteEvent ign m q t) (t + 500)
          (fun t2 h2 => hw t2 (List.mem_cons_of_mem _ h2))
          (fun t2 h2 => hf t2 (List.mem_cons_of_mem _ h2))
          hm2 (by omega) (by omega)
      · have hm2 : pEntries p (handleWriteEvent ign m q t) = [(p, d)] :=
          (pEntries_handleWrite_ne ign m p q t hq).trans hm
        exact ih (handleWriteEvent ign m q t) d
          (fun t2 h2 => hw t2 (List.mem_cons_of_mem _ h2))
          (fun t2 h2 => hf t2 (List.mem_cons_of_mem _ h2))
          hm2 hd1 hd2
    | flush t =>
      have ht : t ≤ t0 + 500 := hf t (List.mem_cons_self _ rest)
      have hdt : ¬ d < t := by omega
      have hkeep : pEntries p (flushKeep m t) = [(p, d)] := by
        rw [pEntries_flushKeep, hm, List.filter_cons]
        simp [hdt]
      have hrest := ih (flushKeep m t) d
        (fun t2 h2 => hw t2 (List.mem_cons_of_mem _ h2))
        (fun t2 h2 => hf t2 (List.mem_cons_of_mem _ h2))
        hkeep hd1 hd2
      refine ⟨?_, hrest.2⟩
      show ((flushFired m t ++ (runWatcher ign (flushKeep m t) rest).2).count p) = 0
      rw [List.count_append, count_flushFired, hm, List.filter_cons]
      simp [hdt, hrest.1]

theorem run_pre_empty (ign : String → Bool) (p : String) (t0 : Nat)
    (hip : ign p = false) (hsp : isSourceFile p = true) (pre : List WStep) :
    ∀ m, (∀ t, WStep.write p t ∈ pre → t0 ≤ t ∧ t < t0 + 500) →
      (∀ t, WStep.flush t ∈ pre → t ≤ t0 + 500) →
      pEntries p m = [] →
      (runWatcher ign m pre).2.count p = 0 ∧
        ((∃ t, WStep.write p t ∈ pre) →
          ∃ d2, pEntries p (runWatcher ign m pre).1 = [(p, d2)] ∧
            t0 + 500 ≤ d2 ∧ d2 < t0 + 1000) := by
  induction pre with
  | nil =>
    intro m _ _ hm
    refine ⟨rfl, ?_⟩
    rintro ⟨t, ht⟩
    cases ht
  | cons s rest ih =>
    intro m hw hf hm
    cases s with
    | write q t =>
      by_cases hq : q = p
      · subst hq
        have hbounds := hw t (List.mem_cons_self _ rest)
        have hm2 := pEntries_handleWrite_self ign m q t hip hsp
        have hkeep := run_pre_keep ign q t0 hip hsp rest
          (handleWriteEvent ign m q t) (t + 500)
          (fun t2 h2 => hw t2 (List.mem_cons_of_mem _ h2))
          (fun t2 h2 => hf t2 (List.mem_cons_of_mem _ h2))
          hm2 (by omega) (by omega)
        exact ⟨hkeep.1, fun _ => hkeep.2⟩
      · have hm2 : pEntries p (handleWriteEvent ign m q t) = [] :=
          (pEntries_handleWrite_ne ign m p q t hq).trans hm
        have hrest := ih (handleWriteEvent ign m q t)
          (fun t2 h2 => hw t2 (List.mem_cons_of_mem _ h2))
          (fun t2 h2 => hf t2 (List.mem_cons_of_mem _ h2)) hm2
        refine ⟨hrest.1, ?_⟩
        rintro ⟨tw, htw⟩
        rcases List.mem_cons.mp htw with heq | hin
        · exact absurd (WStep.write.inj heq).1.symm hq
        · exact hrest.2 ⟨tw, hin⟩
    | flush t =>
      have hkeep : pEntries p (flushKeep m t) = [] := by
        rw [pEntries_flushKeep, hm]; rfl
      have hrest := ih (flushKeep m t)
        (fun t2 h2 => hw t2 (List.mem_cons_of_mem _ h2))
        (fun t2 h2 => hf t2 (List.mem_cons_of_mem _ h2)) hkeep
      constructor
      · show ((flushFired m t ++ (runWatcher ign (flushKeep m t) rest).2).count p) = 0
        rw [List.count_append, count_flushFired, hm]
        simp [hrest.1]
      · rintro ⟨tw, htw⟩
        rcases List.mem_cons.mp htw with heq | hin
        · exact WStep.noConfusion heq
        · exact hrest.2 ⟨tw, hin⟩

/-- Claim C5: a Write/Create event on a supported, non-ignored file sets
that file's pending deadline to now + 500 ms (a repeated event overwrites,
i.e. resets, the deadline); the flusher fires an entry only when its
deadline lies strictly in the past and removes exactly the expired
entries from the pending map; and over any trace in which all writes to a
path fall inside one 500 ms window, with every in-window flush at most
500 ms past the window start, no later writes to the path, and the 100 ms
ticker eventually flushing at or after window start + 1000 ms, the path
is reindexed exactly once. -/
theorem Watcher_debounce_spec :
    (∀ (ign : String → Bool) (m : PendingMap) (path : String) (now : Nat),
        ign path = false → isSourceFile path = true →
        pmLookup (handleWriteEvent ign m path now) path = some (now + 500)) ∧
    (∀ (m : PendingMap) (t : Nat) (path : String),
        path ∈ flushFired m t → ∃ d, (path, d) ∈ m ∧ d < t) ∧
    (∀ (m : PendingMap) (t : Nat) (path : String),
        pEntries path (flushKeep m t) =
          (pEntries path m).filter (fun e => ¬ e.2 < t)) ∧
    (∀ (ign : String → Bool) (p : String) (pre post : List WStep)
        (m : PendingMap) (t0 : Nat),
        ign p = false → isSourceFile p = true →
        pEntries p m = [] →
        (∃ t, WStep.write p t ∈ pre) →
        (∀ t, WStep.write p t ∈ pre → t0 ≤ t ∧ t < t0 + 500) →
        (∀ t, WStep.flush t ∈ pre → t ≤ t0 + 500) →
        (∀ t, WStep.write p t ∈ post → False) →
        (∃ t, WStep.flush t ∈ post ∧ t0 + 1000 ≤ t) →
        (runWatcher ign m (pre ++ post)).2.count p = 1) := by
  refine ⟨?_, mem_flushFired, pEntries_flushKeep, ?_⟩
  · intro ign m path now hig hsrc
    unfold handleWriteEvent
    rw [hig]
    simp only [Bool.false_eq_true, if_false, hsrc, if_true]
    exact pmLookup_pmInsert_self m path (now + debounceTime)
  · intro ign p pre post m t0 hip hsp hm hex hw hf hnw hpf
    have hpre := run_pre_empty ign p t0 hip hsp pre m hw hf hm
    rcases hpre.2 hex with ⟨d2, hd2, hb1, hb2⟩
    have hpost : (runWatcher ign (runWatcher ign m pre).1 post).2.count p = 1 := by
      rcases hpf with ⟨tf, htf, htb⟩
      exact run_count_one_of_single ign p post (runWatcher ign m pre).1 d2 hd2
        hnw ⟨tf, htf, by omega⟩
    rw [runWatcher_append]
    rw [List.count_append, hpre.1, hpost]

/-- Witness for C5: two writes at 0 ms and 100 ms, an early tick at
200 ms, a late tick at 1100 ms — exactly one reindex of the file. -/
theorem Watcher_debounce_spec_witness :
    isSourceFile "f.go" = true ∧
    (runWatcher (fun _ => false) []
        ([WStep.write "f.go" 0, WStep.write "f.go" 100, WStep.flush 200] ++
          [WStep.flush 1100])).2.count "f.go" = 1 :=
  ⟨by decide,
    Watcher_debounce_spec.2.2.2 (fun _ => false) "f.go"
      [WStep.write "f.go" 0, WStep.write "f.go" 100, WStep.flush 200]
      [WStep.flush 1100] [] 0 rfl (by decide) rfl
      ⟨0, by decide⟩
      (by intro t ht; simp at ht; rcases ht with rfl | rfl <;> omega)
      (by intro t ht; simp at ht; omega)
      (by intro t ht; simp at ht)
      ⟨1100, by decide, by decide⟩⟩

end Codemap
